import Mathlib

/-!
# Verification of the graph core (`graphs.py`)

Shallow embedding of `src/1_molecular_representations/1.1_molecular_graph_theory/
src/graphs.py`: a generic mutable graph (`BaseGraph` / `UndirectedGraph`) with
depth-first and breadth-first traversal, connected components and cycle
detection.

Modelling conventions, each justified against the source:

* The Python object state (`self._nodes`, `self._visited_nodes`,
  `self._traversal_order`, `self._has_path`, `self._fifo_queue`) becomes the
  record `GState`.  Methods become functions `GState → ... → GState` (with
  `Except` for the `ValueError` raised by `_validate_nodes`; the error value
  carries the missing node reported in the message).
* `self._nodes` is a `defaultdict(list)` with insertion order: modelled as an
  association list `Storage α`; `adjL` is dict lookup defaulting to `[]`.
  (`defaultdict.__getitem__` additionally inserts an empty list for a missing
  key; that side effect never changes any lookup result nor any traversal,
  so reads are modelled as pure lookups.)
* An edge `{neighbour: weight}` (a one-entry dict) is the pair
  `(neighbour, weight)` with `weight : Option Int`; `list(edge.keys())[0]`
  is `Prod.fst`.
* Python `set.add` / `in` on `self._visited_nodes` is `insertV` / list
  membership.
* Modelled from the spec: the injected `FifoQueue` (its implementation is not
  part of this repository's source).  Per the spec it offers `enqueue`,
  `dequeue` and an emptiness check used as the loop condition of `_bfs`; it is
  a first-in-first-out list (`enqueue` appends at the back, `dequeue` pops the
  front).  Nothing in `graphs.py` ever clears it.
* Python truthiness of a node value (used by `_validate_nodes` in
  `end_node not in self._nodes and end_node`) is the type class `PyTruthy`:
  `0`, the empty string, and `None` are falsy.  `end_node = None` is the
  `Option.none` sentinel, distinct from every node value.
* The recursive `_dfs` / `_detect_cycles` and the `while` loop of `_bfs` are
  modelled with an explicit fuel parameter; the public entry points pass a
  fuel that dominates the recursion depth (each recursive call marks a
  previously unvisited node, so the number of keys plus mentioned neighbours
  plus the queue length bounds it), hence the `0`-fuel branch is dead code
  for those calls.
-/

set_option linter.unusedVariables false
set_option linter.unusedSectionVars false

/-- Python truthiness for node values (`bool(x)` in Python). -/
class PyTruthy (α : Type) where
  truthy : α → Bool

instance : PyTruthy Int := ⟨fun n => decide (n ≠ 0)⟩

instance : PyTruthy String := ⟨fun s => decide (s ≠ "")⟩

/-- One stored edge record `{neighbour: weight}`. -/
abbrev EdgeRec (α : Type) := α × Option Int

/-- `self._nodes`: insertion-ordered dict from node to edge list. -/
abbrev Storage (α : Type) := List (α × List (EdgeRec α))

/-- The full state of a `Graph` object: persistent storage plus the transient
traversal fields and the injected FIFO queue. -/
structure GState (α : Type) where
  nodes : Storage α
  visited : List α
  order : List α
  hasPath : Bool
  queue : List α

variable {α : Type} [DecidableEq α] [PyTruthy α]

/-- A freshly constructed graph object whose storage is `g`:
all transient fields empty, `_has_path` false, queue empty. -/
def mkInit (g : Storage α) : GState α := ⟨g, [], [], false, []⟩

/-- Keys of the storage dict (`for node in self._nodes`). -/
def keysOf (g : Storage α) : List α := g.map Prod.fst

/-- `x in self._nodes`. -/
def containsKey (g : Storage α) (x : α) : Bool := decide (x ∈ keysOf g)

/-- `self._nodes[x]` as a pure read: the edge list of `x`, `[]` when absent
(`defaultdict(list)` behaviour; the accompanying insertion of an empty list
cannot change any later read). -/
def adjL : Storage α → α → List (EdgeRec α)
  | [], _ => []
  | (k, v) :: rest, x => if k = x then v else adjL rest x

/-- The neighbour nodes of `x` in edge-list order
(`list(edge.keys())[0]` for each stored edge). -/
def nbrs (g : Storage α) (x : α) : List α := (adjL g x).map Prod.fst

/-- `set.add`: insert if not present (we keep first-insertion order, which is
irrelevant for a set: only membership is ever consulted). -/
def insertV (x : α) (v : List α) : List α := if x ∈ v then v else v ++ [x]

/-- Truthiness of `end_node` which may be the `None` sentinel. -/
def truthyO : Option α → Bool
  | none => false
  | some x => PyTruthy.truthy x

/-- `BaseGraph._validate_nodes(start_node, end_node=None)`.
Returns `some missing` when Python raises
`ValueError(f-string mentioning missing)`, `none` when validation passes.
Python: `if start_node not in self._nodes or (end_node not in self._nodes and
end_node): missing = start_node if start_node not in self._nodes else end_node`. -/
def validate_nodes (g : Storage α) (start_node : α) (end_node : Option α) : Option α :=
  if containsKey g start_node = false then some start_node
  else
    match end_node with
    | some e => if containsKey g e = false ∧ PyTruthy.truthy e = true then some e else none
    | none => none

/-- `BaseGraph.add_node`: insert with empty edge list if not already a key. -/
def add_node (node : α) (s : GState α) : GState α :=
  if containsKey s.nodes node then s else { s with nodes := s.nodes ++ [(node, [])] }

/-- `self._nodes[x].append(e)` with `defaultdict` semantics: append to the edge
list of `x`, creating the entry (at the end, per dict insertion order) when
`x` is not yet a key. -/
def appendEdge (g : Storage α) (x : α) (e : EdgeRec α) : Storage α :=
  if containsKey g x then g.map (fun p => if p.1 = x then (p.1, p.2 ++ [e]) else p)
  else g ++ [(x, [e])]

/-- `BaseGraph.add_edge` → `BaseGraph._add_edge`, whose body is `pass`:
the unspecialised edge-insertion policy does nothing at all. -/
def add_edge_base (from_node to_node : α) (weight : Option Int) (s : GState α) : GState α := s

/-- `UndirectedGraph._add_edge`: validate both endpoints
(`_validate_nodes(from_node, to_node)`), then append `{to: w}` to `from`'s
list and `{from: w}` to `to`'s list, in that order. -/
def add_edge_undirected (from_node to_node : α) (weight : Option Int) (s : GState α) :
    Except α (GState α) :=
  match validate_nodes s.nodes from_node (some to_node) with
  | some missing => .error missing
  | none =>
      .ok { s with
        nodes := appendEdge (appendEdge s.nodes from_node (to_node, weight))
                   to_node (from_node, weight) }

/-- `BaseGraph._dfs(node, end_node)`, fuelled.  Marks `node` visited and
appends it to the traversal order, sets `_has_path` and returns when
`node == end_node`, else recurses into each not-yet-visited neighbour in
edge-list order.  Note there is no early exit once `_has_path` is set:
remaining siblings are still explored. -/
def dfsF : Nat → GState α → α → Option α → GState α
  | 0, s, _, _ => s
  | fuel + 1, s, node, end_node =>
    let s1 : GState α :=
      { s with visited := insertV node s.visited, order := s.order ++ [node] }
    if some node = end_node then { s1 with hasPath := true }
    else
      (adjL s1.nodes node).foldl
        (fun t edge => if edge.1 ∈ t.visited then t else dfsF fuel t edge.1 end_node) s1

/-- One pass of the `while self._fifo_queue:` loop of `BaseGraph._bfs`,
fuelled.  Dequeues; on `current_node == end_node` sets `_has_path` and returns
(abandoning the rest of the queue); otherwise enqueues, marks and records each
unvisited neighbour in edge-list order. -/
def bfsF : Nat → GState α → Option α → GState α
  | 0, s, _ => s
  | fuel + 1, s, end_node =>
    match s.queue with
    | [] => s
    | current :: rest =>
      let s1 : GState α := { s with queue := rest }
      if some current = end_node then { s1 with hasPath := true }
      else
        bfsF fuel
          ((adjL s1.nodes current).foldl
            (fun t edge =>
              if edge.1 ∈ t.visited then t
              else { t with
                       queue := t.queue ++ [edge.1],
                       visited := insertV edge.1 t.visited,
                       order := t.order ++ [edge.1] })
            s1)
          end_node

/-- All nodes a traversal can ever mark: the keys together with every
neighbour mentioned in an edge list.  Only used to compute a sufficient fuel
and to bound recursion in proofs. -/
def univList (g : Storage α) : List α :=
  g.map Prod.fst ++ g.flatMap (fun p => p.2.map Prod.fst)

/-- Fuel that dominates the recursion depth of `_dfs` / `_detect_cycles`. -/
def dfsFuel (g : Storage α) : Nat := (univList g).length + 1

/-- `BaseGraph._bfs(start_node, end_node)`: defensively clear the visited set
and traversal order (the source clears each only when non-empty, which has
the same effect), enqueue/mark/record `start_node`, then run the loop. -/
def bfsRun (start_node : α) (end_node : Option α) (s : GState α) : GState α :=
  let s0 : GState α := { s with visited := [], order := [] }
  let s1 : GState α :=
    { s0 with
        queue := s0.queue ++ [start_node],
        visited := insertV start_node s0.visited,
        order := s0.order ++ [start_node] }
  bfsF (s1.queue.length + (univList s1.nodes).length + 1) s1 end_node

/-- `BaseGraph.find_path`: validate, run DFS, return a copy of the traversal
order when `_has_path` was set (then reset it), clearing visited set and
traversal order before returning. -/
def find_path (start_node : α) (end_node : Option α) (s : GState α) :
    Except α (Option (List α) × GState α) :=
  match validate_nodes s.nodes start_node end_node with
  | some missing => .error missing
  | none =>
    let s1 := dfsF (dfsFuel s.nodes) s start_node end_node
    let path : Option (List α) := if s1.hasPath then some s1.order else none
    .ok (path, { s1 with hasPath := false, visited := [], order := [] })

/-- `BaseGraph.find_shortest_path`: same wrapper as `find_path` but around
`_bfs`. -/
def find_shortest_path (start_node : α) (end_node : Option α) (s : GState α) :
    Except α (Option (List α) × GState α) :=
  match validate_nodes s.nodes start_node end_node with
  | some missing => .error missing
  | none =>
    let s1 := bfsRun start_node end_node s
    let path : Option (List α) := if s1.hasPath then some s1.order else none
    .ok (path, { s1 with hasPath := false, visited := [], order := [] })

/-- `BaseGraph._has_traversable_neighbours`. -/
def has_traversable_neighbours (l : List (EdgeRec α)) : Bool := decide (l.length ≠ 0)

/-- `BaseGraph.connected_components`: for each key (in insertion order) that
has a non-empty edge list and is not yet visited, run a DFS with no target;
return (a copy of) the accumulated visited set, clearing visited set and
traversal order.  The Python result is a set; we return the underlying list,
whose membership is the set. -/
def connected_components (s : GState α) : List α × GState α :=
  let s1 :=
    (keysOf s.nodes).foldl
      (fun t node =>
        if has_traversable_neighbours (adjL t.nodes node) = true ∧ node ∉ t.visited
        then dfsF (dfsFuel t.nodes) t node none else t)
      s
  (s1.visited, { s1 with visited := [], order := [] })

/-- `UndirectedGraph._detect_cycles(current_node, visited, parent_node)`,
fuelled; the visited dict (its set of `True` entries) is threaded and
returned next to the boolean.  For each neighbour in edge-list order:
if unvisited, recurse with `parent := current` and propagate `True`;
if visited and not equal to the parent, report a cycle. -/
def detectF : Nat → Storage α → List α → α → Option α → Bool × List α
  | 0, _, vis, _, _ => (false, vis)
  | fuel + 1, g, vis, current, parent =>
    (adjL g current).foldl
      (fun acc edge =>
        if acc.1 then acc
        else if edge.1 ∈ acc.2 then
          if parent ≠ some edge.1 then (true, acc.2) else acc
        else detectF fuel g acc.2 edge.1 (some current))
      (false, insertV current vis)

/-- `UndirectedGraph.is_cyclic`: visited dict initialised all-`False`;
for each key in insertion order, if unvisited, run the detector with no
parent; `True` as soon as one call reports a cycle. -/
def is_cyclic (s : GState α) : Bool :=
  ((keysOf s.nodes).foldl
    (fun acc node =>
      if acc.1 then acc
      else if node ∈ acc.2 then acc
      else detectF ((keysOf s.nodes).length + 1) s.nodes acc.2 node none)
    (false, ([] : List α))).1

/-- Projection used to state results of `find_path` / `find_shortest_path`:
`some p` when the call returned normally with path `p`, `none` when it raised. -/
def resultPath (r : Except α (Option (List α) × GState α)) : Option (Option (List α)) :=
  match r with
  | .ok (p, _) => some p
  | .error _ => none

/-- Projection: the state after a normal return. -/
def resultState (r : Except α (Option (List α) × GState α)) : Option (GState α) :=
  match r with
  | .ok (_, t) => some t
  | .error _ => none

/-- Projection: the raised missing node, `none` when no error was raised. -/
def errOf {β : Type} (r : Except α β) : Option α :=
  match r with
  | .ok _ => none
  | .error a => some a

/-- Convenience for building concrete example graphs through the public API:
`add_edge` on the undirected graph, keeping the old state if it raised
(all example insertions succeed, witnessed by the computed storages below). -/
def addEdgeU (from_node to_node : α) (s : GState α) : GState α :=
  match add_edge_undirected from_node to_node none s with
  | .ok t => t
  | .error _ => s

/-- Example node names. -/
def nA : String := "A"

def nB : String := "B"

def nC : String := "C"

def nD : String := "D"

/-- Empty undirected graph object. -/
def emptyG : GState String := mkInit []

/-- The 4-cycle of the spec examples: edges added in the order
(A,B), (B,C), (C,D), (D,A). -/
def g4cycle : GState String :=
  addEdgeU nD nA (addEdgeU nC nD (addEdgeU nB nC (addEdgeU nA nB
    (add_node nD (add_node nC (add_node nB (add_node nA emptyG)))))))

/-- Fork graph: edges (A,B), (A,C). -/
def gFork : GState String :=
  addEdgeU nA nC (addEdgeU nA nB
    (add_node nC (add_node nB (add_node nA emptyG))))

/-- Fork plus a pendant: edges (A,B), (A,C), (C,D). -/
def gForkD : GState String :=
  addEdgeU nC nD (addEdgeU nA nC (addEdgeU nA nB
    (add_node nD (add_node nC (add_node nB (add_node nA emptyG))))))

/-- Single node A, no edges. -/
def gSingle : GState String := add_node nA emptyG

/-- Triangle graph {A-B, B-C, C-A}. -/
def gTriangle : GState String :=
  addEdgeU nC nA (addEdgeU nB nC (addEdgeU nA nB
    (add_node nC (add_node nB (add_node nA emptyG)))))

/-- Path graph {A-B, B-C}. -/
def gPath : GState String :=
  addEdgeU nB nC (addEdgeU nA nB
    (add_node nC (add_node nB (add_node nA emptyG))))

/-- Single undirected edge {A-B}. -/
def gEdge : GState String :=
  addEdgeU nA nB (add_node nB (add_node nA emptyG))

/-- Nodes {A,B,C}, no edges. -/
def gNoEdges : GState String :=
  add_node nC (add_node nB (add_node nA emptyG))

/-- Two components: edges (A,B) and (C,D). -/
def gTwoComp : GState String :=
  addEdgeU nC nD (addEdgeU nA nB
    (add_node nD (add_node nC (add_node nB (add_node nA emptyG)))))

/-- Int graph containing only the node 1 (for the truthiness counterexample:
the node 0 is falsy in Python). -/
def gInt : GState Int := add_node 1 (mkInit [])

/-! ## Specification-side notions used by the proofs -/

/-- The symmetry invariant of the undirected storage: every stored edge
record has its mirror record with the same weight. -/
def SymStorage (g : Storage α) : Prop :=
  ∀ u v : α, ∀ w : Option Int, (v, w) ∈ adjL g u → (u, w) ∈ adjL g v

/-- Reachability in `g` from a start node, where a node equal to the target
`e?` is never expanded (both traversals stop expanding at the target): the
set of nodes a traversal toward `e?` can ever mark. -/
inductive Reach (g : Storage α) (e? : Option α) : α → α → Prop
  | refl (x : α) : Reach g e? x x
  | step {x y z : α} : Reach g e? x y → some y ≠ e? → z ∈ nbrs g y → Reach g e? x z

/-- Well-formedness of the transient traversal state: the order sequence has
no duplicates and records exactly the visited set. -/
def WFo (s : GState α) : Prop :=
  s.order.Nodup ∧ ∀ x, x ∈ s.visited ↔ x ∈ s.order

/-- Invariant of the breadth-first loop started at `start` toward `e?` on
graph `g`: storage untouched, queued nodes already recorded, order sequence
duplicate-free, recording exactly the visited set, and every recorded node
reachable without expanding the target. -/
def BfsInv (g : Storage α) (start : α) (e? : Option α) (s : GState α) : Prop :=
  s.nodes = g ∧ (∀ x, x ∈ s.queue → x ∈ s.order) ∧ (∀ x, x ∈ s.visited ↔ x ∈ s.order) ∧
    s.order.Nodup ∧ (∀ x, x ∈ s.order → Reach g e? start x)

/-- Number of potentially markable nodes not yet visited; the measure that
bounds the recursion depth of `_dfs`. -/
def unvisCount (g : Storage α) (vis : List α) : Nat :=
  ((univList g).filter (fun x => decide (x ∉ vis))).length

/-! ## Generic helper lemmas -/

lemma foldl_pres {β σ : Type} (P : σ → Prop) (step : σ → β → σ)
    (h : ∀ t b, P t → P (step t b)) :
    ∀ (l : List β) (s : σ), P s → P (l.foldl step s) := by
  intro l
  induction l with
  | nil => intro s hs; exact hs
  | cons b rest ih => intro s hs; exact ih (step s b) (h s b hs)

lemma insertV_mem {x y : α} {v : List α} : y ∈ insertV x v ↔ y = x ∨ y ∈ v := by
  unfold insertV
  split
  · rename_i hx
    constructor
    · exact fun h => Or.inr h
    · rintro (rfl | h)
      · exact hx
      · exact h
  · simp [or_comm]

lemma insertV_self {x : α} {v : List α} : x ∈ insertV x v :=
  insertV_mem.mpr (Or.inl rfl)

lemma insertV_subset {x : α} {v : List α} : v ⊆ insertV x v := by
  intro y hy; exact insertV_mem.mpr (Or.inr hy)

/-! ## hasPath is never set by a breadth-first search with no target -/

lemma bfs_step_hasPath (s1 : GState α) (l : List (EdgeRec α)) :
    (l.foldl
      (fun t edge =>
        if edge.1 ∈ t.visited then t
        else { t with
                 queue := t.queue ++ [edge.1],
                 visited := insertV edge.1 t.visited,
                 order := t.order ++ [edge.1] })
      s1).hasPath = s1.hasPath := by
  have := foldl_pres (σ := GState α) (fun t => t.hasPath = s1.hasPath)
    (fun t edge =>
      if edge.1 ∈ t.visited then t
      else { t with
               queue := t.queue ++ [edge.1],
               visited := insertV edge.1 t.visited,
               order := t.order ++ [edge.1] })
    (by
      intro t b ht
      by_cases hb : b.1 ∈ t.visited
      · simpa [hb] using ht
      · simpa [hb] using ht)
    l s1 rfl
  exact this

lemma bfsF_hasPath_none (fuel : Nat) (s : GState α) :
    (bfsF fuel s none).hasPath = s.hasPath := by
  induction fuel generalizing s with
  | zero => rfl
  | succ f ih =>
    cases hq : s.queue with
    | nil => simp [bfsF, hq]
    | cons current rest =>
      have hne : ¬ (some current = (none : Option α)) := by simp
      simp only [bfsF, hq, hne, if_false]
      rw [ih]
      exact bfs_step_hasPath _ _

/-! ## Claim theorems: concrete evaluations and the easy general facts -/

/-- C10: `add_edge` on the base graph type dispatches to `_add_edge`, whose
body is `pass`: for any arguments, present or absent endpoints alike, the
whole object state — node/edge storage included — is returned unchanged, and
no error is raised (the return type is not fallible). -/
theorem C10_base_add_edge_is_noop (from_node to_node : α) (w : Option Int) (s : GState α) :
    add_edge_base from_node to_node w s = s := rfl

/-- C7: `is_cyclic` on the undirected variant reports a back-edge (a visited
neighbour other than the immediate parent): it returns `true` on the triangle
{A-B, B-C, C-A}, `false` on the path {A-B, B-C}, and `false` on a single
undirected edge (the parent exclusion at work). -/
theorem C7_is_cyclic_examples :
    is_cyclic gTriangle = true ∧ is_cyclic gPath = false ∧ is_cyclic gEdge = false :=
  ⟨rfl, rfl, rfl⟩

/-- C1 (code bug evaluation): on the 4-cycle built by adding edges
(A,B), (B,C), (C,D), (D,A) in that order, `find_shortest_path(A, C)` returns
the breadth-first **visitation order** [A, B, D, C] — which contains the
off-path node D and is not the shortest path [A, B, C] claimed by the spec
and by the method's own docstring ("A list representing the shortest path"). -/
theorem C1_shortest_path_returns_visitation_order :
    resultPath (find_shortest_path nA (some nC) g4cycle) = some (some [nA, nB, nD, nC]) ∧
    [nA, nB, nD, nC] ≠ [nA, nB, nC] :=
  ⟨rfl, by decide⟩

/-- C2 (code bug evaluation): on the fork graph with edges (A,B), (A,C),
`find_path(A, B)` returns [A, B, C]: the DFS keeps exploring the sibling C
after `end` was already found (no early exit on `_has_path`), so the returned
sequence ends in C, not in the requested end node B — against the spec's
round-trip property and the docstring's "A list representing the path". -/
theorem C2_find_path_last_is_not_end :
    resultPath (find_path nA (some nB) gFork) = some (some [nA, nB, nC]) ∧
    [nA, nB, nC].getLast? = some nC ∧ nC ≠ nB :=
  ⟨rfl, rfl, by decide⟩

/-- C3 (counterexample): on the single-node graph {A},
`find_shortest_path(A, None)` returns the absent result `None`, not the
breadth-first visitation order [A] the claim promises. -/
theorem C3_counterexample_none_returned :
    resultPath (find_shortest_path nA none gSingle) = some none ∧
    resultPath (find_shortest_path nA none gSingle) ≠ some (some [nA]) :=
  ⟨rfl, by decide⟩

/-- C3 (amended): for every graph state with a present start node and the
`_has_path` flag clear (as it is after construction and after every public
call), `find_shortest_path(start, None)` performs the traversal but returns
the absent result `None`: with a null target, no dequeued node ever equals
`end_node`, so `_has_path` is never set and the order sequence is discarded. -/
theorem C3_amended_shortest_path_none_target (s : GState α) (start_node : α)
    (h1 : containsKey s.nodes start_node = true) (h2 : s.hasPath = false) :
    resultPath (find_shortest_path start_node none s) = some none := by
  have hv : validate_nodes s.nodes start_node none = none := by
    simp [validate_nodes, h1]
  have hbfs : (bfsRun start_node none s).hasPath = false := by
    unfold bfsRun
    rw [bfsF_hasPath_none]
    exact h2
  simp [find_shortest_path, hv, resultPath, hbfs]

/-- C3 (amended, witness): the single-node instance. -/
theorem C3_amended_witness :
    resultPath (find_shortest_path nA none gSingle) = some none :=
  C3_amended_shortest_path_none_target gSingle nA rfl rfl

/-- C4 (counterexample): with integer nodes, on the graph whose only node is
1, `find_path(1, 0)` raises nothing — it returns the normal no-path result —
although the end node 0 is non-null and absent from storage: `_validate_nodes`
guards the end check with the node's truthiness (`... and end_node`), and 0 is
falsy in Python. -/
theorem C4_counterexample_falsy_end_not_validated :
    errOf (find_path (1 : Int) (some 0) gInt) = none ∧
    resultPath (find_path (1 : Int) (some 0) gInt) = some none ∧
    ((0 : Int) ∈ keysOf gInt.nodes → False) ∧
    PyTruthy.truthy (0 : Int) = false :=
  ⟨rfl, rfl, by decide, rfl⟩

/-- C4 (amended): `find_path`, `find_shortest_path` and the undirected
`add_edge` raise the NodeNotFound error, before any traversal or mutation,
exactly when the start node or a **truthy** non-null end node is absent from
storage (a falsy end node such as 0 or the empty string is never validated);
the error identifies the first missing node, start checked before end, and
when both endpoints are present no error is raised. -/
theorem C4_amended_validation (s : GState α) (start_node : α) (end_node : Option α)
    (u v : α) (w : Option Int) :
    (errOf (find_path start_node end_node s) = none ↔
       (start_node ∈ keysOf s.nodes ∧
        ∀ e, end_node = some e → PyTruthy.truthy e = true → e ∈ keysOf s.nodes)) ∧
    (start_node ∉ keysOf s.nodes →
       errOf (find_path start_node end_node s) = some start_node) ∧
    (∀ e, start_node ∈ keysOf s.nodes → end_node = some e →
       PyTruthy.truthy e = true → e ∉ keysOf s.nodes →
       errOf (find_path start_node end_node s) = some e) ∧
    errOf (find_shortest_path start_node end_node s) =
      errOf (find_path start_node end_node s) ∧
    errOf (add_edge_undirected u v w s) = errOf (find_path u (some v) s) := by
  have hfp : ∀ (a : α) (eo : Option α),
      errOf (find_path a eo s) = validate_nodes s.nodes a eo := by
    intro a eo
    unfold find_path
    cases hv : validate_nodes s.nodes a eo with
    | none => simp [errOf]
    | some m => simp [errOf]
  have hfsp : errOf (find_shortest_path start_node end_node s) =
      validate_nodes s.nodes start_node end_node := by
    unfold find_shortest_path
    cases hv : validate_nodes s.nodes start_node end_node with
    | none => simp [errOf]
    | some m => simp [errOf]
  have hae : errOf (add_edge_undirected u v w s) = validate_nodes s.nodes u (some v) := by
    unfold add_edge_undirected
    cases hv : validate_nodes s.nodes u (some v) with
    | none => simp [errOf]
    | some m => simp [errOf]
  refine ⟨?_, ?_, ?_, ?_, ?_⟩
  · rw [hfp]
    unfold validate_nodes
    by_cases hs : start_node ∈ keysOf s.nodes
    · cases end_node with
      | none => simp [containsKey, hs]
      | some e =>
        by_cases he : e ∈ keysOf s.nodes
        · simp [containsKey, hs, he]
        · by_cases ht : PyTruthy.truthy e = true
          · simp [containsKey, hs, he, ht]
          · simp [containsKey, hs, he, ht]
    · simp [containsKey, hs]
  · intro hs
    rw [hfp]
    unfold validate_nodes
    simp [containsKey, hs]
  · intro e hs he ht hmem
    rw [hfp]
    subst he
    unfold validate_nodes
    simp [containsKey, hs, hmem, ht]
  · rw [hfsp, hfp]
  · rw [hae, hfp]

/-- C4 (amended, witness): on the Int graph with single node 1, the truthy
absent end node 5 is reported. -/
theorem C4_amended_witness : errOf (find_path (1 : Int) (some 5) gInt) = some 5 :=
  (C4_amended_validation gInt 1 (some 5) 1 5 none).2.2.1 5 (by decide) rfl rfl (by decide)

/-- C5 (counterexample): the injected FIFO queue is **not** reset when
`find_shortest_path` returns.  On the graph with edges (A,B), (A,C), (C,D),
the call `find_shortest_path(A, B)` returns [A, B, C] and leaves the
abandoned node C in the queue; repeating the identical call on the unchanged
graph then returns [A, D, B, C] ≠ [A, B, C]. -/
theorem C5_counterexample_queue_leaks :
    resultPath (find_shortest_path nA (some nB) gForkD) = some (some [nA, nB, nC]) ∧
    (resultState (find_shortest_path nA (some nB) gForkD)).map GState.queue = some [nC] ∧
    (resultState (find_shortest_path nA (some nB) gForkD)).map
        (fun t => resultPath (find_shortest_path nA (some nB) t)) =
      some (some (some [nA, nD, nB, nC])) ∧
    ([nA, nD, nB, nC] : List String) ≠ [nA, nB, nC] :=
  ⟨rfl, rfl, rfl, by decide⟩

/-- C5 (amended): the visited set, the traversal-order sequence and the
`_has_path` flag are indeed empty/clear whenever `find_path`,
`find_shortest_path` or `connected_components` returns normally (for the
latter the flag is simply untouched); only the FIFO queue can carry state
over between calls. -/
theorem C5_amended_transient_state_cleared (s : GState α) (start_node : α)
    (end_node : Option α) (p : Option (List α)) (s' : GState α) :
    (find_path start_node end_node s = .ok (p, s') →
       s'.visited = [] ∧ s'.order = [] ∧ s'.hasPath = false) ∧
    (find_shortest_path start_node end_node s = .ok (p, s') →
       s'.visited = [] ∧ s'.order = [] ∧ s'.hasPath = false) ∧
    (∀ res t, connected_components s = (res, t) → t.visited = [] ∧ t.order = []) := by
  refine ⟨?_, ?_, ?_⟩
  · intro h
    unfold find_path at h
    cases hv : validate_nodes s.nodes start_node end_node with
    | some m => rw [hv] at h; exact absurd h (by simp)
    | none =>
      rw [hv] at h
      simp only [Except.ok.injEq, Prod.mk.injEq] at h
      rw [← h.2]
      exact ⟨rfl, rfl, rfl⟩
  · intro h
    unfold find_shortest_path at h
    cases hv : validate_nodes s.nodes start_node end_node with
    | some m => rw [hv] at h; exact absurd h (by simp)
    | none =>
      rw [hv] at h
      simp only [Except.ok.injEq, Prod.mk.injEq] at h
      rw [← h.2]
      exact ⟨rfl, rfl, rfl⟩
  · intro res t h
    unfold connected_components at h
    simp only [Prod.mk.injEq] at h
    rw [← h.2]
    exact ⟨rfl, rfl⟩

/-- C5 (amended, witness): concrete instance on the single-node graph. -/
theorem C5_amended_witness :
    (mkInit [(nA, [])] : GState String).visited = [] ∧
    (mkInit [(nA, [])] : GState String).order = [] ∧
    (mkInit [(nA, [])] : GState String).hasPath = false :=
  (C5_amended_transient_state_cleared gSingle nA none none (mkInit [(nA, [])])).1 rfl

/-! ## Storage lemmas for edge insertion (claim C9) -/

lemma adjL_not_key (g : Storage α) (x : α) (h : containsKey g x = false) : adjL g x = [] := by
  induction g with
  | nil => rfl
  | cons p rest ih =>
    simp only [containsKey, keysOf, List.map_cons, List.mem_cons, decide_eq_false_iff_not,
      not_or] at h
    obtain ⟨k, v⟩ := p
    have hk : ¬ k = x := fun hkx => h.1 hkx.symm
    simp only [adjL, if_neg hk]
    exact ih (by simpa [containsKey, keysOf] using h.2)

lemma mem_adjL_key {g : Storage α} {x : α} {e : EdgeRec α} (h : e ∈ adjL g x) :
    containsKey g x = true := by
  by_contra hc
  rw [adjL_not_key g x (by simpa using hc)] at h
  exact absurd h (List.not_mem_nil e)

lemma containsKey_cons (k : α) (v : List (EdgeRec α)) (rest : Storage α) (y : α) :
    containsKey ((k, v) :: rest) y = (decide (y = k) || containsKey rest y) := by
  by_cases h : y = k
  · simp [containsKey, keysOf, h]
  · simp [containsKey, keysOf, h]

lemma adjL_cons (k : α) (v : List (EdgeRec α)) (rest : Storage α) (y : α) :
    adjL ((k, v) :: rest) y = if k = y then v else adjL rest y := rfl

lemma adjL_append (g₁ g₂ : Storage α) (y : α) :
    adjL (g₁ ++ g₂) y = if containsKey g₁ y = true then adjL g₁ y else adjL g₂ y := by
  induction g₁ with
  | nil => simp [adjL, containsKey, keysOf]
  | cons p rest ih =>
    obtain ⟨k, v⟩ := p
    by_cases hk : k = y
    · subst hk
      rw [List.cons_append, adjL_cons, if_pos rfl, containsKey_cons]
      simp [adjL_cons]
    · have hyk : ¬ (y = k) := fun h => hk h.symm
      rw [List.cons_append, adjL_cons, if_neg hk, ih, containsKey_cons, adjL_cons,
        if_neg hk]
      simp [hyk]

lemma adjL_mapApp (g : Storage α) (x y : α) (e : EdgeRec α) :
    adjL (g.map (fun p => if p.1 = x then (p.1, p.2 ++ [e]) else p)) y =
      if x = y ∧ containsKey g x = true then adjL g y ++ [e] else adjL g y := by
  induction g with
  | nil => simp [adjL, containsKey, keysOf]
  | cons p rest ih =>
    obtain ⟨k, v⟩ := p
    rw [List.map_cons]
    dsimp only
    by_cases hkx : k = x
    · rw [if_pos hkx]
      subst hkx
      by_cases hky : k = y
      · subst hky
        rw [adjL_cons, if_pos rfl, adjL_cons, if_pos rfl, containsKey_cons]
        simp
      · rw [adjL_cons, if_neg hky, adjL_cons, if_neg hky, ih, containsKey_cons]
        have h1 : ¬ (k = y ∧ containsKey rest k = true) := fun hh => hky hh.1
        have h2 : ¬ (k = y ∧ (decide (k = k) || containsKey rest k) = true) :=
          fun hh => hky hh.1
        rw [if_neg h1, if_neg h2]
    · rw [if_neg hkx]
      have hxk : ¬ (x = k) := fun h => hkx h.symm
      by_cases hky : k = y
      · subst hky
        rw [adjL_cons, if_pos rfl, adjL_cons, if_pos rfl, containsKey_cons]
        have : ¬ (x = k ∧ (decide (x = k) || containsKey rest x) = true) := fun hh => hxk hh.1
        rw [if_neg this]
      · rw [adjL_cons, if_neg hky, adjL_cons, if_neg hky, ih, containsKey_cons]
        simp [hxk]

lemma adjL_appendEdge (g : Storage α) (x y : α) (e : EdgeRec α) :
    adjL (appendEdge g x e) y = if x = y then adjL g y ++ [e] else adjL g y := by
  unfold appendEdge
  by_cases hc : containsKey g x = true
  · rw [if_pos hc, adjL_mapApp]
    by_cases hxy : x = y
    · subst hxy
      simp [hc]
    · simp [hxy]
  · have hcf : containsKey g x = false := by simpa using hc
    rw [hcf]
    simp only [Bool.false_eq_true, if_false]
    rw [adjL_append]
    by_cases hxy : x = y
    · subst hxy
      rw [hcf]
      simp only [Bool.false_eq_true, if_false, adjL, if_pos rfl]
      rw [adjL_not_key g x hcf]
      simp
    · by_cases hcy : containsKey g y = true
      · simp [hcy, hxy]
      · have hcyf : containsKey g y = false := by simpa using hcy
        rw [hcyf]
        simp only [Bool.false_eq_true, if_false]
        rw [adjL_cons, if_neg hxy, adjL_not_key g y hcyf, if_neg hxy]
        rfl

lemma adjL_edge_pair (g : Storage α) (u v x : α) (w : Option Int) :
    adjL (appendEdge (appendEdge g u (v, w)) v (u, w)) x =
      adjL g x ++ (if u = x then [(v, w)] else []) ++ (if v = x then [(u, w)] else []) := by
  rw [adjL_appendEdge, adjL_appendEdge]
  by_cases h1 : v = x
  · by_cases h2 : u = x
    · simp [h1, h2]
    · simp [h1, h2]
  · by_cases h2 : u = x
    · simp [h1, h2]
    · simp [h1, h2]

lemma symStorage_nil : SymStorage ([] : Storage α) := by
  intro u v w h
  exact absurd h (List.not_mem_nil _)

lemma symStorage_append_node {g : Storage α} (hs : SymStorage g) (x : α) :
    SymStorage (g ++ [(x, [])]) := by
  intro u v w h
  have hmem : (v, w) ∈ adjL g u := by
    rw [adjL_append] at h
    by_cases hc : containsKey g u = true
    · rwa [if_pos hc] at h
    · rw [if_neg hc] at h
      by_cases hxu : x = u
      · simp [adjL, hxu] at h
      · rw [adjL_not_key [(x, [])] u (by simp [containsKey, keysOf]; exact fun hh => hxu hh.symm)] at h
        exact absurd h (List.not_mem_nil _)
  have hmir := hs u v w hmem
  rw [adjL_append, if_pos (mem_adjL_key hmir)]
  exact hmir

lemma symStorage_add_node {s : GState α} (hs : SymStorage s.nodes) (x : α) :
    SymStorage (add_node x s).nodes := by
  unfold add_node
  by_cases hc : containsKey s.nodes x
  · simpa [hc] using hs
  · simp only [hc, if_false]
    exact symStorage_append_node hs x

lemma symStorage_edge_pair {g : Storage α} (hs : SymStorage g) (u v : α) (w : Option Int) :
    SymStorage (appendEdge (appendEdge g u (v, w)) v (u, w)) := by
  intro a b wb hab
  rw [adjL_edge_pair] at hab
  rw [adjL_edge_pair]
  simp only [List.mem_append] at hab ⊢
  rcases hab with (h | h) | h
  · exact Or.inl (Or.inl (hs a b wb h))
  · by_cases hua : u = a
    · rw [if_pos hua] at h
      simp only [List.mem_singleton, Prod.mk.injEq] at h
      obtain ⟨rfl, rfl⟩ := h
      subst hua
      right
      simp
    · rw [if_neg hua] at h
      exact absurd h (List.not_mem_nil _)
  · by_cases hva : v = a
    · rw [if_pos hva] at h
      simp only [List.mem_singleton, Prod.mk.injEq] at h
      obtain ⟨rfl, rfl⟩ := h
      subst hva
      left; right
      simp
    · rw [if_neg hva] at h
      exact absurd h (List.not_mem_nil _)

/-- C9: after every successful `add_edge` on the undirected variant, the
record `{to: w}` is appended at the end of `from`'s edge list, `{from: w}` at
the end of `to`'s edge list (both appends to the same list for a self-loop),
no other node's edge list changes, and the symmetry invariant of the storage
is preserved. -/
theorem C9_undirected_add_edge_append (s : GState α) (u v : α) (w : Option Int)
    (s' : GState α) (h : add_edge_undirected u v w s = .ok s') :
    (u ≠ v → adjL s'.nodes u = adjL s.nodes u ++ [(v, w)] ∧
             adjL s'.nodes v = adjL s.nodes v ++ [(u, w)]) ∧
    (u = v → adjL s'.nodes u = adjL s.nodes u ++ [(v, w), (u, w)]) ∧
    (∀ x, x ≠ u → x ≠ v → adjL s'.nodes x = adjL s.nodes x) ∧
    (SymStorage s.nodes → SymStorage s'.nodes) := by
  unfold add_edge_undirected at h
  cases hv : validate_nodes s.nodes u (some v) with
  | some m => rw [hv] at h; exact absurd h (by simp)
  | none =>
    rw [hv] at h
    simp only [Except.ok.injEq] at h
    subst h
    refine ⟨?_, ?_, ?_, ?_⟩
    · intro huv
      constructor
      · rw [adjL_edge_pair]
        have : ¬ (v = u) := fun hh => huv hh.symm
        simp [this]
      · rw [adjL_edge_pair]
        simp [huv]
    · intro huv
      subst huv
      rw [adjL_edge_pair]
      simp
    · intro x hxu hxv
      rw [adjL_edge_pair]
      have h1 : ¬ (u = x) := fun hh => hxu hh.symm
      have h2 : ¬ (v = x) := fun hh => hxv hh.symm
      simp [h1, h2]
    · intro hs
      exact symStorage_edge_pair hs u v w

/-- C9 (witness): adding the weighted edge (A,B,2) to the two-node graph. -/
theorem C9_witness :
    adjL [(nA, [(nB, some 2)]), (nB, [(nA, some 2)])] nA =
        adjL (add_node nB (add_node nA emptyG)).nodes nA ++ [(nB, some 2)] ∧
    adjL [(nA, [(nB, some 2)]), (nB, [(nA, some 2)])] nB =
        adjL (add_node nB (add_node nA emptyG)).nodes nB ++ [(nA, some 2)] :=
  (C9_undirected_add_edge_append (add_node nB (add_node nA emptyG)) nA nB (some 2)
    ⟨[(nA, [(nB, some 2)]), (nB, [(nA, some 2)])], [], [], false, []⟩ (by rfl)).1 (by decide)

/-! ## Depth-first search infrastructure (claims C6, C8) -/

lemma foldl_pres_mem {β σ : Type} (P : σ → Prop) (step : σ → β → σ) (l : List β)
    (h : ∀ t b, b ∈ l → P t → P (step t b)) :
    ∀ s : σ, P s → P (l.foldl step s) := by
  induction l with
  | nil => intro s hs; exact hs
  | cons b rest ih =>
    intro s hs
    exact ih (fun t c hc ht => h t c (List.mem_cons_of_mem b hc) ht) (step s b)
      (h s b (List.mem_cons_self b rest) hs)

lemma filter_length_le {β : Type} (l : List β) (p q : β → Bool)
    (himp : ∀ x, q x = true → p x = true) :
    (l.filter q).length ≤ (l.filter p).length := by
  induction l with
  | nil => simp
  | cons a t ih =>
    simp only [List.filter]
    cases hq : q a with
    | true => simp [himp a hq, ih]
    | false =>
      cases hp : p a
      · simpa using ih
      · simp only [List.length_cons]
        omega

lemma filter_length_lt {β : Type} (l : List β) (p q : β → Bool)
    (himp : ∀ x, q x = true → p x = true) (x : β) (hx : x ∈ l)
    (hp : p x = true) (hq : q x = false) :
    (l.filter q).length < (l.filter p).length := by
  induction l with
  | nil => exact absurd hx (List.not_mem_nil x)
  | cons a t ih =>
    simp only [List.filter]
    rcases List.mem_cons.mp hx with rfl | hxt
    · rw [hq, hp]
      simp only [List.length_cons]
      exact Nat.lt_succ_of_le (filter_length_le t p q himp)
    · cases hq2 : q a with
      | true =>
        rw [himp a hq2]
        simpa using ih hxt
      | false =>
        cases hp2 : p a
        · simpa using ih hxt
        · simp only [List.length_cons]
          exact Nat.lt_succ_of_le (Nat.le_of_lt (ih hxt))

lemma unvisCount_le_univ (g : Storage α) (vis : List α) :
    unvisCount g vis ≤ (univList g).length := by
  unfold unvisCount
  exact List.length_filter_le _ _

lemma unvisCount_mono (g : Storage α) {v1 v2 : List α} (h : v1 ⊆ v2) :
    unvisCount g v2 ≤ unvisCount g v1 := by
  unfold unvisCount
  refine filter_length_le _ _ _ ?_
  intro x hx
  simp only [decide_eq_true_eq] at hx ⊢
  exact fun hmem => hx (h hmem)

lemma unvisCount_insert_lt (g : Storage α) (vis : List α) (x : α)
    (hx : x ∈ univList g) (hnv : x ∉ vis) :
    unvisCount g (insertV x vis) < unvisCount g vis := by
  unfold unvisCount
  refine filter_length_lt _ _ _ ?_ x hx ?_ ?_
  · intro y hy
    simp only [decide_eq_true_eq, insertV_mem, not_or] at hy ⊢
    exact hy.2
  · simpa using hnv
  · simp [insertV_self]

lemma mem_univ_of_key {g : Storage α} {x : α} (h : containsKey g x = true) :
    x ∈ univList g := by
  unfold univList
  simp only [containsKey, decide_eq_true_eq, keysOf] at h
  exact List.mem_append_left _ h

lemma mem_adjL_entry {g : Storage α} {x : α} {e : EdgeRec α} (h : e ∈ adjL g x) :
    ∃ p, p ∈ g ∧ e ∈ p.2 := by
  induction g with
  | nil => exact absurd h (List.not_mem_nil e)
  | cons p rest ih =>
    obtain ⟨k, v⟩ := p
    rw [adjL_cons] at h
    by_cases hk : k = x
    · rw [if_pos hk] at h
      exact ⟨(k, v), List.mem_cons_self _ _, h⟩
    · rw [if_neg hk] at h
      obtain ⟨q, hq, he⟩ := ih h
      exact ⟨q, List.mem_cons_of_mem _ hq, he⟩

lemma mem_univ_of_mem_adjL {g : Storage α} {x : α} {e : EdgeRec α} (h : e ∈ adjL g x) :
    e.1 ∈ univList g := by
  obtain ⟨p, hp, he⟩ := mem_adjL_entry h
  unfold univList
  refine List.mem_append_right _ ?_
  simp only [List.mem_flatMap, List.mem_map]
  exact ⟨p, hp, e, he, rfl⟩

lemma mem_univ_of_mem_nbrs {g : Storage α} {x y : α} (h : y ∈ nbrs g x) :
    y ∈ univList g := by
  unfold nbrs at h
  simp only [List.mem_map] at h
  obtain ⟨e, he, rfl⟩ := h
  exact mem_univ_of_mem_adjL he

lemma dfsF_nodes (fuel : Nat) (s : GState α) (node : α) (e? : Option α) :
    (dfsF fuel s node e?).nodes = s.nodes := by
  induction fuel generalizing s node with
  | zero => rfl
  | succ f ih =>
    simp only [dfsF]
    by_cases hend : some node = e?
    · rw [if_pos hend]
    · rw [if_neg hend]
      refine foldl_pres (fun t => t.nodes = s.nodes)
        (fun (t : GState α) (edge : EdgeRec α) => if edge.1 ∈ t.visited then t else dfsF f t edge.1 e?)
        ?_ _ _ ?_
      · intro t b ht
        dsimp only
        by_cases hb : b.1 ∈ t.visited
        · simpa [hb] using ht
        · rw [if_neg hb, ih]
          exact ht
      · rfl

lemma dfsF_queue (fuel : Nat) (s : GState α) (node : α) (e? : Option α) :
    (dfsF fuel s node e?).queue = s.queue := by
  induction fuel generalizing s node with
  | zero => rfl
  | succ f ih =>
    simp only [dfsF]
    by_cases hend : some node = e?
    · rw [if_pos hend]
    · rw [if_neg hend]
      refine foldl_pres (fun t => t.queue = s.queue)
        (fun (t : GState α) (edge : EdgeRec α) => if edge.1 ∈ t.visited then t else dfsF f t edge.1 e?)
        ?_ _ _ ?_
      · intro t b ht
        dsimp only
        by_cases hb : b.1 ∈ t.visited
        · simpa [hb] using ht
        · rw [if_neg hb, ih]
          exact ht
      · rfl

lemma dfsF_visited_mono (fuel : Nat) (s : GState α) (node : α) (e? : Option α) :
    s.visited ⊆ (dfsF fuel s node e?).visited := by
  induction fuel generalizing s node with
  | zero => exact fun x hx => hx
  | succ f ih =>
    simp only [dfsF]
    by_cases hend : some node = e?
    · rw [if_pos hend]
      exact insertV_subset
    · rw [if_neg hend]
      refine foldl_pres (fun t => s.visited ⊆ t.visited)
        (fun (t : GState α) (edge : EdgeRec α) => if edge.1 ∈ t.visited then t else dfsF f t edge.1 e?)
        ?_ _ _ ?_
      · intro t b ht
        dsimp only
        by_cases hb : b.1 ∈ t.visited
        · simpa [hb] using ht
        · rw [if_neg hb]
          exact fun x hx => ih t b.1 (ht hx)
      · exact insertV_subset

lemma dfsF_wfo (fuel : Nat) (s : GState α) (node : α) (e? : Option α)
    (hw : WFo s) (hnv : node ∉ s.visited) : WFo (dfsF fuel s node e?) := by
  induction fuel generalizing s node with
  | zero => exact hw
  | succ f ih =>
    have hno : node ∉ s.order := fun h => hnv ((hw.2 node).mpr h)
    have hw1 : WFo { s with visited := insertV node s.visited, order := s.order ++ [node] } := by
      constructor
      · simp [List.nodup_append, hw.1, hno]
      · intro x
        simp only [insertV_mem, List.mem_append, List.mem_singleton]
        constructor
        · rintro (rfl | h)
          · exact Or.inr rfl
          · exact Or.inl ((hw.2 x).mp h)
        · rintro (h | rfl)
          · exact Or.inr ((hw.2 x).mpr h)
          · exact Or.inl rfl
    simp only [dfsF]
    by_cases hend : some node = e?
    · rw [if_pos hend]
      exact hw1
    · rw [if_neg hend]
      refine foldl_pres WFo
        (fun (t : GState α) (edge : EdgeRec α) => if edge.1 ∈ t.visited then t else dfsF f t edge.1 e?)
        ?_ _ _ hw1
      intro t b ht
      dsimp only
      by_cases hb : b.1 ∈ t.visited
      · simpa [hb] using ht
      · rw [if_neg hb]
        exact ih t b.1 ht hb

lemma dfsF_closure :
    ∀ (fuel : Nat) (s : GState α) (node : α) (e? : Option α),
      node ∉ s.visited → node ∈ univList s.nodes →
      unvisCount s.nodes s.visited < fuel →
      node ∈ (dfsF fuel s node e?).visited ∧
      (∀ x, x ∈ (dfsF fuel s node e?).visited → x ∉ s.visited → some x ≠ e? →
        ∀ y, y ∈ nbrs s.nodes x → y ∈ (dfsF fuel s node e?).visited) := by
  intro fuel
  induction fuel with
  | zero =>
    intro s node e? h1 h2 h3
    omega
  | succ f ih =>
    intro s node e? hnv hnu hcnt
    have hdec : unvisCount s.nodes (insertV node s.visited) < unvisCount s.nodes s.visited :=
      unvisCount_insert_lt s.nodes s.visited node hnu hnv
    have hs1f : unvisCount s.nodes (insertV node s.visited) < f := by omega
    by_cases hend : some node = e?
    · simp only [dfsF, if_pos hend]
      constructor
      · exact insertV_self
      · intro x hx hxnv hxe y hy
        rcases insertV_mem.mp hx with rfl | hm
        · exact absurd hend hxe
        · exact absurd hm hxnv
    · simp only [dfsF, if_neg hend]
      have loop : ∀ (l : List (EdgeRec α)) (t : GState α),
          t.nodes = s.nodes →
          (∀ ed, ed ∈ l → ed.1 ∈ univList s.nodes) →
          unvisCount s.nodes t.visited < f →
          t.visited ⊆ (List.foldl
              (fun (t : GState α) (edge : EdgeRec α) =>
                if edge.1 ∈ t.visited then t else dfsF f t edge.1 e?) t l).visited ∧
          (List.foldl
              (fun (t : GState α) (edge : EdgeRec α) =>
                if edge.1 ∈ t.visited then t else dfsF f t edge.1 e?) t l).nodes = s.nodes ∧
          unvisCount s.nodes (List.foldl
              (fun (t : GState α) (edge : EdgeRec α) =>
                if edge.1 ∈ t.visited then t else dfsF f t edge.1 e?) t l).visited ≤
            unvisCount s.nodes t.visited ∧
          (∀ ed, ed ∈ l → ed.1 ∈ (List.foldl
              (fun (t : GState α) (edge : EdgeRec α) =>
                if edge.1 ∈ t.visited then t else dfsF f t edge.1 e?) t l).visited) ∧
          (∀ x, x ∈ (List.foldl
              (fun (t : GState α) (edge : EdgeRec α) =>
                if edge.1 ∈ t.visited then t else dfsF f t edge.1 e?) t l).visited →
            x ∉ t.visited → some x ≠ e? →
            ∀ y, y ∈ nbrs s.nodes x → y ∈ (List.foldl
              (fun (t : GState α) (edge : EdgeRec α) =>
                if edge.1 ∈ t.visited then t else dfsF f t edge.1 e?) t l).visited) := by
        intro l
        induction l with
        | nil =>
          intro t ht hl hcf
          refine ⟨fun x hx => hx, ht, Nat.le_refl _, ?_, ?_⟩
          · intro ed hed
            exact absurd hed (List.not_mem_nil ed)
          · intro x hx hxt
            exact absurd hx hxt
        | cons ed rest ihl =>
          intro t ht hl hcf
          rw [List.foldl_cons]
          by_cases hmem : ed.1 ∈ t.visited
          · rw [if_pos hmem]
            obtain ⟨R1, R2, R3, R4, R5⟩ :=
              ihl t ht (fun e he => hl e (List.mem_cons_of_mem ed he)) hcf
            refine ⟨R1, R2, R3, ?_, R5⟩
            intro e he
            rcases List.mem_cons.mp he with rfl | hrest
            · exact R1 hmem
            · exact R4 e hrest
          · rw [if_neg hmem]
            obtain ⟨hmark, hclos⟩ := ih t ed.1 e? hmem
              (by rw [ht]; exact hl ed (List.mem_cons_self ed rest))
              (by rw [ht]; exact hcf)
            rw [ht] at hclos
            have ht1n : (dfsF f t ed.1 e?).nodes = s.nodes := by
              rw [dfsF_nodes]; exact ht
            have hsub1 : t.visited ⊆ (dfsF f t ed.1 e?).visited :=
              dfsF_visited_mono f t ed.1 e?
            have hcnt1 : unvisCount s.nodes (dfsF f t ed.1 e?).visited ≤
                unvisCount s.nodes t.visited := unvisCount_mono s.nodes hsub1
            obtain ⟨R1, R2, R3, R4, R5⟩ := ihl (dfsF f t ed.1 e?) ht1n
              (fun e he => hl e (List.mem_cons_of_mem ed he))
              (lt_of_le_of_lt hcnt1 hcf)
            refine ⟨fun x hx => R1 (hsub1 hx), R2, Nat.le_trans R3 hcnt1, ?_, ?_⟩
            · intro e he
              rcases List.mem_cons.mp he with rfl | hrest
              · exact R1 hmark
              · exact R4 e hrest
            · intro x hx hxt hxe y hy
              by_cases hxt1 : x ∈ (dfsF f t ed.1 e?).visited
              · exact R1 (hclos x hxt1 hxt hxe y hy)
              · exact R5 x hx hxt1 hxe y hy
      obtain ⟨L1, L2, L3, L4, L5⟩ := loop (adjL s.nodes node)
        { s with visited := insertV node s.visited, order := s.order ++ [node] }
        rfl (fun ed hed => mem_univ_of_mem_adjL hed) hs1f
      constructor
      · exact L1 insertV_self
      · intro x hx hxnv hxe y hy
        by_cases hxs1 : x ∈ insertV node s.visited
        · rcases insertV_mem.mp hxs1 with rfl | hm
          · obtain ⟨ed, hed, rfl⟩ := List.mem_map.mp hy
            exact L4 ed hed
          · exact absurd hm hxnv
        · exact L5 x hx hxs1 hxe y hy

lemma reach_trans {g : Storage α} {e? : Option α} {a b c : α}
    (h1 : Reach g e? a b) (h2 : Reach g e? b c) : Reach g e? a c := by
  induction h2 with
  | refl => exact h1
  | step hxy hne hnb ih => exact Reach.step ih hne hnb

lemma dfsF_sound :
    ∀ (fuel : Nat) (s : GState α) (node : α) (e? : Option α) (x : α),
      x ∈ (dfsF fuel s node e?).visited → x ∈ s.visited ∨ Reach s.nodes e? node x := by
  intro fuel
  induction fuel with
  | zero =>
    intro s node e? x hx
    exact Or.inl hx
  | succ f ih =>
    intro s node e? x hx
    by_cases hend : some node = e?
    · simp only [dfsF, if_pos hend] at hx
      rcases insertV_mem.mp hx with rfl | hm
      · exact Or.inr (Reach.refl x)
      · exact Or.inl hm
    · simp only [dfsF, if_neg hend] at hx
      have loop : ∀ (l : List (EdgeRec α)) (t : GState α),
          t.nodes = s.nodes →
          (∀ ed, ed ∈ l → ed.1 ∈ nbrs s.nodes node) →
          (∀ z, z ∈ t.visited → z ∈ s.visited ∨ Reach s.nodes e? node z) →
          ∀ z, z ∈ (List.foldl
              (fun (t : GState α) (edge : EdgeRec α) =>
                if edge.1 ∈ t.visited then t else dfsF f t edge.1 e?) t l).visited →
            z ∈ s.visited ∨ Reach s.nodes e? node z := by
        intro l
        induction l with
        | nil =>
          intro t ht hl hinv z hz
          exact hinv z hz
        | cons ed rest ihl =>
          intro t ht hl hinv z hz
          rw [List.foldl_cons] at hz
          by_cases hmem : ed.1 ∈ t.visited
          · rw [if_pos hmem] at hz
            exact ihl t ht (fun e he => hl e (List.mem_cons_of_mem ed he)) hinv z hz
          · rw [if_neg hmem] at hz
            have ht1n : (dfsF f t ed.1 e?).nodes = s.nodes := by
              rw [dfsF_nodes]; exact ht
            refine ihl (dfsF f t ed.1 e?) ht1n
              (fun e he => hl e (List.mem_cons_of_mem ed he)) ?_ z hz
            intro z2 hz2
            rcases ih t ed.1 e? z2 hz2 with hold | hreach
            · exact hinv z2 hold
            · right
              have hstep : Reach s.nodes e? node ed.1 :=
                Reach.step (Reach.refl node) hend (hl ed (List.mem_cons_self ed rest))
              rw [ht] at hreach
              exact reach_trans hstep hreach
      refine loop (adjL s.nodes node)
        { s with visited := insertV node s.visited, order := s.order ++ [node] }
        rfl ?_ ?_ x hx
      · intro ed hed
        unfold nbrs
        exact List.mem_map_of_mem Prod.fst hed
      · intro z hz
        rcases insertV_mem.mp hz with rfl | hm
        · exact Or.inr (Reach.refl z)
        · exact Or.inl hm

lemma reach_subset_dfsF (s : GState α) (start : α) (e? : Option α)
    (hv : s.visited = []) (hstart : start ∈ univList s.nodes) :
    ∀ x, Reach s.nodes e? start x → x ∈ (dfsF (dfsFuel s.nodes) s start e?).visited := by
  have hcnt : unvisCount s.nodes s.visited < dfsFuel s.nodes := by
    unfold dfsFuel
    exact Nat.lt_succ_of_le (unvisCount_le_univ _ _)
  have hcl := dfsF_closure (dfsFuel s.nodes) s start e? (by simp [hv]) hstart hcnt
  intro x hx
  induction hx with
  | refl => exact hcl.1
  | step hxy hne hnb ih => exact hcl.2 _ ih (by simp [hv]) hne _ hnb

lemma bfsF_inv (g : Storage α) (start : α) (e? : Option α) :
    ∀ (fuel : Nat) (s : GState α), BfsInv g start e? s → BfsInv g start e? (bfsF fuel s e?) := by
  intro fuel
  induction fuel with
  | zero => intro s h; exact h
  | succ f ih =>
    intro s hinv
    obtain ⟨hn, hq, hio, hnd, hr⟩ := hinv
    cases hqe : s.queue with
    | nil =>
      simp only [bfsF, hqe]
      exact ⟨hn, hq, hio, hnd, hr⟩
    | cons current rest =>
      have hcur : current ∈ s.order := hq current (by rw [hqe]; exact List.mem_cons_self _ _)
      have hreach_cur : Reach g e? start current := hr current hcur
      simp only [bfsF, hqe]
      by_cases hend : some current = e?
      · rw [if_pos hend]
        exact ⟨hn, fun x hx => hq x (by rw [hqe]; exact List.mem_cons_of_mem _ hx), hio, hnd, hr⟩
      · rw [if_neg hend]
        refine ih _ ?_
        refine foldl_pres_mem (BfsInv g start e?)
          (fun (t : GState α) (edge : EdgeRec α) =>
            if edge.1 ∈ t.visited then t
            else { t with
                     queue := t.queue ++ [edge.1],
                     visited := insertV edge.1 t.visited,
                     order := t.order ++ [edge.1] })
          (adjL s.nodes current) ?_ _ ?_
        · intro t ed hed ht
          dsimp only
          by_cases hm : ed.1 ∈ t.visited
          · rwa [if_pos hm]
          · rw [if_neg hm]
            obtain ⟨tn, tq, tio, tnd, tr⟩ := ht
            have hedn : ed.1 ∉ t.order := fun hh => hm ((tio ed.1).mpr hh)
            refine ⟨tn, ?_, ?_, ?_, ?_⟩
            · intro x hx
              rcases List.mem_append.mp hx with hx1 | hx2
              · exact List.mem_append_left _ (tq x hx1)
              · exact List.mem_append_right _ hx2
            · intro x
              rw [insertV_mem, List.mem_append]
              constructor
              · rintro (rfl | hm2)
                · exact Or.inr (List.mem_singleton_self _)
                · exact Or.inl ((tio x).mp hm2)
              · rintro (h | h)
                · exact Or.inr ((tio x).mpr h)
                · exact Or.inl (List.mem_singleton.mp h)
            · simp [List.nodup_append, tnd, hedn]
            · intro x hx
              rcases List.mem_append.mp hx with hx1 | hx2
              · exact tr x hx1
              · have hxe : x = ed.1 := List.mem_singleton.mp hx2
                subst hxe
                refine Reach.step hreach_cur hend ?_
                rw [← hn]
                exact List.mem_map_of_mem Prod.fst hed
        · exact ⟨hn, fun x hx => hq x (by rw [hqe]; exact List.mem_cons_of_mem _ hx),
            hio, hnd, hr⟩

lemma validate_none_start {g : Storage α} {a : α} {eo : Option α}
    (h : validate_nodes g a eo = none) : containsKey g a = true := by
  unfold validate_nodes at h
  by_cases hc : containsKey g a = false
  · rw [if_pos hc] at h
    exact absurd h (by simp)
  · simpa using hc

/-- C6: for every graph (freshly constructed, clean transient state) and every
start/end pair for which both queries return a sequence, the sequence returned
by `find_shortest_path` is no longer than the one returned by `find_path`:
the breadth-first order is a duplicate-free list of nodes reachable without
expanding `end`, and the depth-first traversal visits every such node. -/
theorem C6_shortest_le_path (g : Storage α) (start e : α) (l₁ l₂ : List α)
    (s₁ s₂ : GState α)
    (h₁ : find_shortest_path start (some e) (mkInit g) = .ok (some l₁, s₁))
    (h₂ : find_path start (some e) (mkInit g) = .ok (some l₂, s₂)) :
    l₁.length ≤ l₂.length := by
  unfold find_path at h₂
  unfold find_shortest_path at h₁
  cases hv : validate_nodes (mkInit g).nodes start (some e) with
  | some m =>
    rw [hv] at h₂
    exact absurd h₂ (by simp)
  | none =>
    rw [hv] at h₁ h₂
    simp only [Except.ok.injEq, Prod.mk.injEq] at h₁ h₂
    have hl₂ : l₂ = (dfsF (dfsFuel (mkInit g).nodes) (mkInit g) start (some e)).order := by
      rcases h₂ with ⟨hpath, -⟩
      by_cases hp : (dfsF (dfsFuel (mkInit g).nodes) (mkInit g) start (some e)).hasPath = true
      · rw [if_pos hp] at hpath
        exact (Option.some_inj.mp hpath).symm
      · rw [if_neg hp] at hpath
        exact absurd hpath (by simp)
    have hl₁ : l₁ = (bfsRun start (some e) (mkInit g)).order := by
      rcases h₁ with ⟨hpath, -⟩
      by_cases hp : (bfsRun start (some e) (mkInit g)).hasPath = true
      · rw [if_pos hp] at hpath
        exact (Option.some_inj.mp hpath).symm
      · rw [if_neg hp] at hpath
        exact absurd hpath (by simp)
    have hkey : containsKey g start = true := validate_none_start hv
    have hstart_univ : start ∈ univList g := mem_univ_of_key hkey
    have hwfo : WFo (dfsF (dfsFuel g) (mkInit g) start (some e)) := by
      refine dfsF_wfo _ _ _ _ ⟨List.nodup_nil, ?_⟩ ?_
      · intro x
        exact Iff.rfl
      · exact List.not_mem_nil start
    have hreach_sub : ∀ x, Reach g (some e) start x →
        x ∈ (dfsF (dfsFuel g) (mkInit g) start (some e)).visited :=
      reach_subset_dfsF (mkInit g) start (some e) rfl hstart_univ
    have hbeq : bfsRun start (some e) (mkInit g) =
        bfsF (1 + (univList g).length + 1)
          ⟨g, [start], [start], false, [start]⟩ (some e) := by
      unfold bfsRun
      simp [mkInit, insertV]
    have hinv1 : BfsInv g start (some e) ⟨g, [start], [start], false, [start]⟩ := by
      refine ⟨rfl, ?_, ?_, ?_, ?_⟩
      · intro x hx
        exact hx
      · intro x
        exact Iff.rfl
      · simp
      · intro x hx
        have hxs : x = start := List.mem_singleton.mp hx
        subst hxs
        exact Reach.refl x
    have hinvb : BfsInv g start (some e) (bfsRun start (some e) (mkInit g)) := by
      rw [hbeq]
      exact bfsF_inv g start (some e) _ _ hinv1
    obtain ⟨-, -, -, hnd_b, hr_b⟩ := hinvb
    have hsub : ∀ x, x ∈ l₁ → x ∈ l₂ := by
      intro x hx
      rw [hl₁] at hx
      have hre : Reach g (some e) start x := hr_b x hx
      have hvis : x ∈ (dfsF (dfsFuel g) (mkInit g) start (some e)).visited := hreach_sub x hre
      rw [hl₂]
      exact (hwfo.2 x).mp hvis
    have hnd₁ : l₁.Nodup := hl₁ ▸ hnd_b
    exact (List.Nodup.subperm hnd₁ hsub).length_le

/-- C6 (witness): the 4-cycle instance, where `find_shortest_path(A,C)`
returns a 4-node sequence and `find_path(A,C)` a 4-node sequence. -/
theorem C6_witness :
    ([nA, nB, nD, nC] : List String).length ≤ ([nA, nB, nC, nD] : List String).length :=
  C6_shortest_le_path g4cycle.nodes nA nC [nA, nB, nD, nC] [nA, nB, nC, nD]
    (mkInit g4cycle.nodes) (mkInit g4cycle.nodes) (by rfl) (by rfl)

/-! ## Connected components (claim C8) -/

lemma containsKey_of_adjL_ne_nil {g : Storage α} {x : α} (h : adjL g x ≠ []) :
    containsKey g x = true := by
  obtain ⟨e, he⟩ := List.exists_mem_of_ne_nil _ h
  exact mem_adjL_key he

lemma reach_ne_nil {g : Storage α} (hsym : SymStorage g) {root x : α}
    (hroot : adjL g root ≠ []) (h : Reach g none root x) : adjL g x ≠ [] := by
  induction h with
  | refl => exact hroot
  | step hxy hne hnb ih =>
    unfold nbrs at hnb
    obtain ⟨ed, hed, rfl⟩ := List.mem_map.mp hnb
    obtain ⟨a, b⟩ := ed
    exact List.ne_nil_of_mem (hsym _ a b hed)

lemma cc_fold (g : Storage α) :
    ∀ (l : List α) (t : GState α), t.nodes = g →
      (List.foldl (fun (t : GState α) (node : α) =>
          if has_traversable_neighbours (adjL t.nodes node) = true ∧ node ∉ t.visited
          then dfsF (dfsFuel t.nodes) t node none else t) t l).nodes = g ∧
      t.visited ⊆ (List.foldl (fun (t : GState α) (node : α) =>
          if has_traversable_neighbours (adjL t.nodes node) = true ∧ node ∉ t.visited
          then dfsF (dfsFuel t.nodes) t node none else t) t l).visited ∧
      (∀ x, x ∈ (List.foldl (fun (t : GState α) (node : α) =>
          if has_traversable_neighbours (adjL t.nodes node) = true ∧ node ∉ t.visited
          then dfsF (dfsFuel t.nodes) t node none else t) t l).visited →
        x ∈ t.visited ∨ ∃ root, adjL g root ≠ [] ∧ Reach g none root x) ∧
      (∀ x, x ∈ l → adjL g x ≠ [] → x ∈ (List.foldl (fun (t : GState α) (node : α) =>
          if has_traversable_neighbours (adjL t.nodes node) = true ∧ node ∉ t.visited
          then dfsF (dfsFuel t.nodes) t node none else t) t l).visited) := by
  intro l
  induction l with
  | nil =>
    intro t ht
    refine ⟨ht, fun x hx => hx, fun x hx => Or.inl hx, ?_⟩
    intro x hx
    exact absurd hx (List.not_mem_nil x)
  | cons node rest ihl =>
    intro t ht
    rw [List.foldl_cons]
    by_cases hc : has_traversable_neighbours (adjL t.nodes node) = true ∧ node ∉ t.visited
    · rw [if_pos hc]
      have hne : adjL g node ≠ [] := by
        have := hc.1
        unfold has_traversable_neighbours at this
        rw [ht] at this
        simp only [decide_eq_true_eq] at this
        exact fun hnil => this (by rw [hnil]; rfl)
      have hkey : containsKey g node = true := containsKey_of_adjL_ne_nil hne
      have hnu : node ∈ univList t.nodes := by
        rw [ht]
        exact mem_univ_of_key hkey
      have hcnt : unvisCount t.nodes t.visited < dfsFuel t.nodes := by
        unfold dfsFuel
        exact Nat.lt_succ_of_le (unvisCount_le_univ _ _)
      have hmark : node ∈ (dfsF (dfsFuel t.nodes) t node none).visited :=
        (dfsF_closure (dfsFuel t.nodes) t node none hc.2 hnu hcnt).1
      have ht1 : (dfsF (dfsFuel t.nodes) t node none).nodes = g := by
        rw [dfsF_nodes]
        exact ht
      have hsub1 : t.visited ⊆ (dfsF (dfsFuel t.nodes) t node none).visited :=
        dfsF_visited_mono _ _ _ _
      obtain ⟨R1, R2, R3, R4⟩ := ihl (dfsF (dfsFuel t.nodes) t node none) ht1
      refine ⟨R1, fun x hx => R2 (hsub1 hx), ?_, ?_⟩
      · intro x hx
        rcases R3 x hx with hin1 | hroot
        · rcases dfsF_sound (dfsFuel t.nodes) t node none x hin1 with hold | hre
          · exact Or.inl hold
          · rw [ht] at hre
            exact Or.inr ⟨node, hne, hre⟩
        · exact Or.inr hroot
      · intro x hx hxne
        rcases List.mem_cons.mp hx with rfl | hrest
        · exact R2 hmark
        · exact R4 x hrest hxne
    · rw [if_neg hc]
      obtain ⟨R1, R2, R3, R4⟩ := ihl t ht
      refine ⟨R1, R2, R3, ?_⟩
      intro x hx hxne
      rcases List.mem_cons.mp hx with rfl | hrest
      · rcases Decidable.not_and_iff_or_not.mp hc with h1 | h2
        · exfalso
          apply h1
          unfold has_traversable_neighbours
          rw [ht]
          simp only [decide_eq_true_eq]
          intro hlen
          exact hxne (List.length_eq_zero.mp hlen)
        · have hxv : x ∈ t.visited := Decidable.not_not.mp h2
          exact R2 hxv
      · exact R4 x hrest hxne

lemma symStorage_gTwoComp : SymStorage gTwoComp.nodes := by
  intro u v w h
  have hu : u ∈ keysOf gTwoComp.nodes := by
    have hk := mem_adjL_key h
    simpa [containsKey] using hk
  have hu4 : u ∈ [nA, nB, nC, nD] := hu
  rcases List.mem_cons.mp hu4 with rfl | hu4
  · rw [show adjL gTwoComp.nodes nA = [(nB, none)] from rfl] at h
    simp only [List.mem_singleton, Prod.mk.injEq] at h
    obtain ⟨rfl, rfl⟩ := h
    rw [show adjL gTwoComp.nodes nB = [(nA, none)] from rfl]
    simp
  rcases List.mem_cons.mp hu4 with rfl | hu4
  · rw [show adjL gTwoComp.nodes nB = [(nA, none)] from rfl] at h
    simp only [List.mem_singleton, Prod.mk.injEq] at h
    obtain ⟨rfl, rfl⟩ := h
    rw [show adjL gTwoComp.nodes nA = [(nB, none)] from rfl]
    simp
  rcases List.mem_cons.mp hu4 with rfl | hu4
  · rw [show adjL gTwoComp.nodes nC = [(nD, none)] from rfl] at h
    simp only [List.mem_singleton, Prod.mk.injEq] at h
    obtain ⟨rfl, rfl⟩ := h
    rw [show adjL gTwoComp.nodes nD = [(nC, none)] from rfl]
    simp
  rcases List.mem_cons.mp hu4 with rfl | hu4
  · rw [show adjL gTwoComp.nodes nD = [(nC, none)] from rfl] at h
    simp only [List.mem_singleton, Prod.mk.injEq] at h
    obtain ⟨rfl, rfl⟩ := h
    rw [show adjL gTwoComp.nodes nC = [(nD, none)] from rfl]
    simp
  exact absurd hu4 (List.not_mem_nil u)

/-- C8: on the undirected variant (symmetric storage), `connected_components`
returns one flattened set whose members are exactly the nodes with at least
one edge — all components merged together, edge-free nodes excluded.
Concretely: nodes {A,B,C} with no edges give the empty set, and the
disconnected graph with edges (A,B) and (C,D) gives the single merged set
{A,B,C,D}. -/
theorem C8_connected_components_flat (g : Storage α) (hsym : SymStorage g) (x : α) :
    (x ∈ (connected_components (mkInit g)).1 ↔ adjL g x ≠ []) ∧
    (connected_components gNoEdges).1 = [] ∧
    (connected_components gTwoComp).1 = [nA, nB, nC, nD] := by
  refine ⟨?_, rfl, rfl⟩
  unfold connected_components
  dsimp only
  obtain ⟨F1, F2, F3, F4⟩ := cc_fold g (keysOf g) (mkInit g) rfl
  constructor
  · intro hx
    rcases F3 x hx with hold | ⟨root, hroot, hre⟩
    · exact absurd hold (List.not_mem_nil x)
    · exact reach_ne_nil hsym hroot hre
  · intro hne
    have hkey : containsKey g x = true := containsKey_of_adjL_ne_nil hne
    have hxl : x ∈ keysOf g := by simpa [containsKey] using hkey
    exact F4 x hxl hne

/-- C8 (witness): A is reported for the two-component example graph. -/
theorem C8_witness : nA ∈ (connected_components (mkInit gTwoComp.nodes)).1 :=
  ((C8_connected_components_flat gTwoComp.nodes symStorage_gTwoComp nA).1).mpr (by decide)
